import Mathlib

/-!
Verification development for the DevmProofGen repository.

The Rust sources under `src/` are shallowly embedded below: pure functions
become Lean functions, in-place mutation becomes explicit state passing, and
code that can panic (out-of-bounds indexing, `unwrap`, `todo!`,
`unreachable!`) is modelled with `Option`, where `none` marks the panic.

The external `evmil` library (disassembler, trace engine, block graph) is
out of scope per the specification; its outputs appear here as parameters
(instruction metadata carried on the `Insn` type, the per-instruction
abstract-state lists, the dominator/reachability sets).

256-bit words are modelled as natural numbers: the embedded code only uses
equality, ordering and a handful of mask constants on them.
-/

namespace DevmProofGen

/-- EVM instructions as consumed by `block.rs`.  The constructors mirror the
variants of `evmil::bytecode::Instruction` that the translated code matches
on; `OTHER` stands for every remaining concrete opcode and carries the
metadata (operand count, produced-count, fall-through flag, byte length)
that the external disassembler provides for it. -/
inductive Insn where
  | JUMPDEST
  | AND
  | JUMP
  | JUMPI
  | MSTORE
  | MSTORE8
  | STOP
  | POP
  | PUSH (bytes : List Nat)
  | DUP (n : Nat)
  | SWAP (n : Nat)
  | HAVOC (n : Nat)
  | DATA (bytes : List Nat)
  | RJUMP (offset : Int)
  | RJUMPI (offset : Int)
  | OTHER (opcode : Nat) (numOperands : Nat) (produces : Nat) (ft : Bool) (len : Nat)
deriving DecidableEq, Repr

/-- Modelled from the spec: the byte length of an instruction is supplied by
the external disassembler ("opcode, operand, length, fall-through flag,
operand count").  A `PUSH` occupies one opcode byte plus its immediate
bytes, a `DATA` section occupies exactly its bytes, and the virtual
`HAVOC` instruction (inserted by the external havoc pre-pass) occupies no
bytes at all, so that byte offsets of later instructions are unchanged. -/
def Insn.length : Insn → Nat
  | .PUSH bytes => 1 + bytes.length
  | .DATA bytes => bytes.length
  | .HAVOC _ => 0
  | .RJUMP _ => 3
  | .RJUMPI _ => 3
  | .OTHER _ _ _ _ len => len
  | _ => 1

/-- Modelled from the spec: the fall-through flag is supplied by the
external disassembler. -/
def Insn.fallthru : Insn → Bool
  | .STOP => false
  | .JUMP => false
  | .RJUMP _ => false
  | .DATA _ => false
  | .OTHER _ _ _ ft _ => ft
  | _ => true

/-- Modelled from the spec: the operand (pop) count is supplied by the
external disassembler. -/
def Insn.operands : Insn → Nat
  | .JUMPDEST => 0
  | .AND => 2
  | .JUMP => 1
  | .JUMPI => 2
  | .MSTORE => 2
  | .MSTORE8 => 2
  | .STOP => 0
  | .POP => 1
  | .PUSH _ => 0
  | .DUP n => n
  | .SWAP n => n + 1
  | .HAVOC _ => 0
  | .DATA _ => 0
  | .RJUMP _ => 0
  | .RJUMPI _ => 1
  | .OTHER _ ops _ _ _ => ops

/-- `insn_produces` from `block.rs`: how many stack items an instruction
pushes.  The source table ends in `unreachable!()` for instructions it does
not list (`RJUMP`/`RJUMPI`), modelled as `none`. -/
def insn_produces : Insn → Option Nat
  | .STOP => some 0
  | .AND => some 1
  | .JUMPDEST => some 0
  | .POP => some 0
  | .JUMP => some 0
  | .JUMPI => some 0
  | .MSTORE => some 0
  | .MSTORE8 => some 0
  | .PUSH _ => some 1
  | .DUP _ => some 1
  | .SWAP _ => some 0
  | .HAVOC _ => some 0
  | .DATA _ => some 0
  | .RJUMP _ => none
  | .RJUMPI _ => none
  | .OTHER _ _ p _ _ => some p

/-- `AbstractState` from `analysis.rs`: optional free-memory pointer plus a
stack frame of optional 256-bit words (index 0 is top of stack). -/
structure AbstractState where
  freemem_ptr : Option Nat
  stack_frame : List (Option Nat)
deriving DecidableEq, Repr

/-- `AbstractState::join_word`: keep the left value only when both sides
hold the same known value, otherwise collapse to `none`. -/
def join_word {T : Type} [DecidableEq T] (lhs rhs : Option T) : Option T :=
  match lhs, rhs with
  | some v, some w => if v = w then some v else none
  | _, _ => none

/-- `AbstractState::join_stack`: truncate to the shorter frame, then join
the items pointwise with `join_word`. -/
def join_stack (self other : List (Option Nat)) : List (Option Nat) :=
  let n := min self.length other.length
  (List.range n).map (fun i => join_word (self.getD i none) (other.getD i none))

/-- `AbstractState::join`. -/
def AbstractState.join (self other : AbstractState) : AbstractState :=
  { freemem_ptr := join_word self.freemem_ptr other.freemem_ptr
    stack_frame := join_stack self.stack_frame other.stack_frame }

/-- The stack part of `AbstractState::cancel`: the source loops
`for i in 0..other.len()` and indexes `self.stack_frame[i]`, which panics
(`none`) whenever `other` is the longer frame. -/
def cancelStack : List (Option Nat) → List (Option Nat) → Option (List (Option Nat))
  | s, [] => some s
  | [], _ :: _ => none
  | x :: s, y :: t =>
      (cancelStack s t).map (fun r => (if x ≠ none ∧ y ≠ none then none else x) :: r)

/-- `AbstractState::cancel`: clear every slot where both states are
`some`; slots beyond `other`'s length are untouched.  `none` models the
out-of-bounds panic when `other` has the longer frame. -/
def AbstractState.cancel (self other : AbstractState) : Option AbstractState :=
  (cancelStack self.stack_frame other.stack_frame).map
    (fun st => { self with stack_frame := st })

/-- `Block::join_states` / `BlockState::join_states`: fold `join` over the
state list starting from the first state; indexing `states[0]` panics
(`none`) when the list is empty. -/
def AbstractState.join_states (states : List AbstractState) : Option AbstractState :=
  match states with
  | [] => none
  | s :: rest => some (rest.foldl AbstractState.join s)

/-- Rust `Vec::dedup`: remove consecutive repeated elements, keeping a
single representative of each run. -/
def dedupRun {α : Type} [DecidableEq α] : List α → List α
  | [] => []
  | [x] => [x]
  | x :: y :: rest => if x = y then dedupRun (y :: rest) else x :: dedupRun (y :: rest)

/-- `BytecodeAnalysis` from `analysis.rs`: per byte offset, the list of
abstract states reached there. -/
structure BytecodeAnalysis where
  states : List (List AbstractState)
deriving DecidableEq, Repr

/-- `BytecodeAnalysis::from_insns`, parameterised by the output of the
external trace engine after the (external) per-state conversion to
`AbstractState`: each per-offset list is de-duplicated with `Vec::dedup`. -/
def BytecodeAnalysis.from_insns (trace : List (List AbstractState)) : BytecodeAnalysis :=
  ⟨trace.map dedupRun⟩

/-- `NecessaryState` from `block.rs`: a growable stack of booleans.  As in
the source `Vec`, the top of the stack is the last list element. -/
structure NecessaryState where
  stack : List Bool
deriving DecidableEq, Repr

/-- `NecessaryState::new`. -/
def NecessaryState.new : NecessaryState := ⟨[]⟩

/-- `NecessaryState::get`: index from the top; out-of-range reads are
`false`. -/
def NecessaryState.get (s : NecessaryState) (index : Nat) : Bool :=
  let n := s.stack.length
  if index < n then s.stack.getD (n - 1 - index) false else false

/-- `NecessaryState::set`: pad with `false` at the bottom until the index
is in range, then assign. -/
def NecessaryState.set (s : NecessaryState) (index : Nat) (item : Bool) : NecessaryState :=
  let stack := List.replicate (index + 1 - s.stack.length) false ++ s.stack
  ⟨stack.set (stack.length - 1 - index) item⟩

/-- `NecessaryState::push`. -/
def NecessaryState.push (s : NecessaryState) (item : Bool) : NecessaryState :=
  ⟨s.stack ++ [item]⟩

/-- `NecessaryState::pop`: remove and return the top; an empty stack
yields `false` and stays empty. -/
def NecessaryState.pop (s : NecessaryState) : Bool × NecessaryState :=
  match s.stack.getLast? with
  | some v => (v, ⟨s.stack.dropLast⟩)
  | none => (false, s)

/-- `NecessaryState::join`: pad the shorter stack with `false` at the
bottom, OR pointwise, and report whether any bit changed. -/
def NecessaryState.join (self other : NecessaryState) : NecessaryState × Bool :=
  let n := max self.stack.length other.stack.length
  let padded := List.replicate (n - self.stack.length) false ++ self.stack
  let m := padded.length - other.stack.length
  let merged := (List.range padded.length).map
    (fun k => if k < m then padded.getD k false
              else padded.getD k false || other.stack.getD (k - m) false)
  (⟨merged⟩, decide (merged ≠ padded))

/-- `Bytecode` from `block.rs`. -/
inductive Bytecode where
  | Comment (s : String)
  | Assert (deps : List Nat) (s : String)
  | Mask (w : Nat)
  | Unit (insn : Insn)
  | JumpI (targets : List Nat)
  | Jump (targets : List Nat)
deriving DecidableEq, Repr

/-- `BlockState` from `block.rs`: per-point abstract states plus the
necessary-stack information. -/
structure BlockState where
  states : List AbstractState
  necessary : NecessaryState
deriving DecidableEq, Repr

/-- `BlockState::new`. -/
def BlockState.new (states : List AbstractState) : BlockState :=
  ⟨states, NecessaryState.new⟩

/-- `Block` from `block.rs`. -/
structure Block where
  pc : Nat
  states : List BlockState
  bytecodes : List Bytecode
  next : Option Nat
deriving DecidableEq, Repr

/-- `operand` from `block.rs`: the consensus (joined) entry state's stack
item at `index`, when the states allow a join (the source panics on an
empty state list, hence the outer `Option`). -/
def operand (index : Nat) (states : List AbstractState) : Option (Option Nat) :=
  match AbstractState.join_states states with
  | none => none
  | some state =>
      if state.stack_frame.length ≤ index then some none
      else some (state.stack_frame.getD index none)

/-- `MASK_U1` from `block.rs`. -/
def MASK_U1 : Nat := 2 ^ 1 - 1
/-- `MASK_U5` from `block.rs`. -/
def MASK_U5 : Nat := 2 ^ 5 - 1
/-- `MASK_U8` from `block.rs`. -/
def MASK_U8 : Nat := 2 ^ 8 - 1
/-- `MASK_U16` from `block.rs`. -/
def MASK_U16 : Nat := 2 ^ 16 - 1
/-- `MASK_U24` from `block.rs`: defined in the source but absent from the
match inside `as_bit_mask`. -/
def MASK_U24 : Nat := 2 ^ 24 - 1
/-- `MASK_U32` from `block.rs`. -/
def MASK_U32 : Nat := 2 ^ 32 - 1
/-- `MASK_U64` from `block.rs`. -/
def MASK_U64 : Nat := 2 ^ 64 - 1
/-- `MASK_U128` from `block.rs`. -/
def MASK_U128 : Nat := 2 ^ 128 - 1
/-- `MASK_U160` from `block.rs`. -/
def MASK_U160 : Nat := 2 ^ 160 - 1

/-- `as_bit_mask` from `block.rs`.  Note the source match lists
`MASK_U1, U5, U8, U16, U32, U64, U128, U160` and omits `MASK_U24`. -/
def as_bit_mask (w : Nat) : Nat :=
  if w = MASK_U1 then 1
  else if w = MASK_U5 then 5
  else if w = MASK_U8 then 8
  else if w = MASK_U16 then 16
  else if w = MASK_U32 then 32
  else if w = MASK_U64 then 64
  else if w = MASK_U128 then 128
  else if w = MASK_U160 then 160
  else 0

/-- `jump_targets` from `block.rs`: read the top-of-stack constant of each
state (`s.stack()[0].unwrap()` panics, hence `none`, when a state has an
empty stack or an unknown top), then sort ascending and remove consecutive
duplicates. -/
def jump_targets (states : List AbstractState) : Option (List Nat) :=
  match states.mapM (fun s => (s.stack_frame.get? 0).bind id) with
  | none => none
  | some targets => some (dedupRun (targets.insertionSort (· ≤ ·)))

/-- `translate_insn` from `block.rs`.  `none` models the panics
(`todo!()` on `RJUMP`/`RJUMPI`, and the panics inside `operand` /
`jump_targets`). -/
def translate_insn (insn : Insn) (done : Bool) (states : List AbstractState) :
    Option (Bytecode × Bool) :=
  match insn with
  | .AND =>
      match operand 0 states with
      | none => none
      | some (some b) =>
          if as_bit_mask b ≠ 0 then some (.Mask (as_bit_mask b), done)
          else some (.Unit insn, done)
      | some none => some (.Unit insn, done)
  | .HAVOC n => some (.Comment ("Havoc " ++ toString n), done)
  | .JUMPI =>
      match jump_targets states with
      | none => none
      | some targets => some (.JumpI targets, done)
  | .JUMP =>
      match jump_targets states with
      | none => none
      | some targets => some (.Jump targets, true)
  | .RJUMP _ => none
  | .RJUMPI _ => none
  | .DATA _ => some (.Unit insn, true)
  | _ => some (.Unit insn, !insn.fallthru)

/-- The `while block.states.len() < block.bytecodes.len()` padding step of
`insns_to_block`: record the entry snapshot at instruction offset `i` for
every freshly appended bytecode. -/
def padStates (blk : Block) (sts : List AbstractState) : Block :=
  { blk with states :=
      blk.states ++
        List.replicate (blk.bytecodes.length - blk.states.length) (BlockState.new sts) }

/-- The body of the `while !done && i < insns.len() && n > 0` loop of
`insns_to_block`, with the remaining budget `n` as the recursion fuel
(exactly mirroring the `n -= 1` per iteration).  Returns the loop state
`(n, pc, i, block, done)` at exit; `none` models a panic inside
`translate_insn`. -/
def i2bLoop (insns : List Insn) (analysis : Nat → List AbstractState)
    (precheck : Insn → List Bytecode → List Bytecode) (index : Nat) :
    Nat → Nat → Nat → Block → Bool → Option (Nat × Nat × Nat × Block × Bool)
  | 0, pc, i, blk, done => some (0, pc, i, blk, done)
  | n + 1, pc, i, blk, done =>
    if done then some (n + 1, pc, i, blk, done)
    else
      match insns.get? i with
      | none => some (n + 1, pc, i, blk, done)
      | some insn =>
        let blk1 := { blk with bytecodes := precheck insn blk.bytecodes }
        if insn = .JUMPDEST then
          if i = index then
            let blk2 := padStates
              { blk1 with bytecodes := blk1.bytecodes ++ [.Unit .JUMPDEST] } (analysis i)
            i2bLoop insns analysis precheck index n (pc + insn.length) (i + 1) blk2 done
          else
            some (n + 1, pc, i, { blk1 with next := some pc }, done)
        else
          match translate_insn insn done (analysis i) with
          | none => none
          | some (bc, done1) =>
            let blk2 := padStates
              { blk1 with bytecodes := blk1.bytecodes ++ [bc] } (analysis i)
            i2bLoop insns analysis precheck index n (pc + insn.length) (i + 1) blk2 done1

/-- `insns_to_block` from `block.rs`: extract one block starting at byte
offset `pc` / instruction offset `index`. -/
def insns_to_block (n pc index : Nat) (insns : List Insn)
    (analysis : Nat → List AbstractState)
    (precheck : Insn → List Bytecode → List Bytecode) : Option (Nat × Nat × Block) :=
  match i2bLoop insns analysis precheck index n pc index
      { pc := pc, states := [], bytecodes := [], next := none } false with
  | none => none
  | some (n1, pc1, i1, blk, done) =>
      some (pc1, i1,
        if n1 = 0 ∧ done = false then { blk with next := some pc1 } else blk)

/-- The `while n > 0 && index < insns.len()` loop of `insns_to_blocks`,
with an explicit fuel (the source loop terminates because every call of
`insns_to_block` consumes at least one instruction). -/
def i2bsLoop (n : Nat) (insns : List Insn) (analysis : Nat → List AbstractState)
    (precheck : Insn → List Bytecode → List Bytecode) :
    Nat → Nat → Nat → List Block → Option (List Block)
  | 0, _, _, _ => none
  | fuel + 1, pc, index, acc =>
    if 0 < n ∧ index < insns.length then
      match insns_to_block n pc index insns analysis precheck with
      | none => none
      | some (pc1, index1, blk) =>
          i2bsLoop n insns analysis precheck fuel pc1 index1 (acc ++ [blk])
    else some acc

/-- `insns_to_blocks` from `block.rs`, parameterised by the (external)
per-instruction analysis results and by the precondition hook. -/
def insns_to_blocks (n : Nat) (insns : List Insn)
    (analysis : Nat → List AbstractState)
    (precheck : Insn → List Bytecode → List Bytecode) : Option (List Block) :=
  i2bsLoop n insns analysis precheck (insns.length + 1) 0 0 []

/-- Partial byte-length sum of the first `i` instructions. -/
def presum (insns : List Insn) (i : Nat) : Nat :=
  ((insns.take i).map Insn.length).sum

/-- Total byte length of an instruction sequence: the end of the last
translated instruction. -/
def totalLength (insns : List Insn) : Nat :=
  (insns.map Insn.length).sum

/-- The cut points of a block decomposition: each block's starting pc,
followed by the end of the instruction stream.  Consecutive cut points
delimit the byte span of one block. -/
def blockCuts (blocks : List Block) (total : Nat) : List Nat :=
  blocks.map Block.pc ++ [total]

/-- The byte spans `[start, end)` of the blocks, derived from the cuts. -/
def blockSpans (blocks : List Block) (total : Nat) : List (Nat × Nat) :=
  (blockCuts blocks total).zip (blockCuts blocks total).tail

/-- How many spans of `spans` start exactly at `o`. -/
def spanStart (spans : List (Nat × Nat)) (o : Nat) : Nat :=
  (spans.filter (fun s => s.1 == o)).length

/-- How many spans of `spans` strictly contain `o`. -/
def spanInside (spans : List (Nat × Nat)) (o : Nat) : Nat :=
  (spans.filter (fun s => decide (s.1 < o) && decide (o < s.2))).length

/-- How many produced blocks start at byte offset `o`. -/
def startCount (blocks : List Block) (total o : Nat) : Nat :=
  spanStart (blockSpans blocks total) o

/-- How many produced blocks strictly contain byte offset `o`. -/
def insideCount (blocks : List Block) (total o : Nat) : Nat :=
  spanInside (blockSpans blocks total) o

/-- A `Jump`/`JumpI` bytecode carries a strictly increasing target list;
every other bytecode passes trivially. -/
def sortedJumps : Bytecode → Bool
  | .Jump ts => decide (List.Chain' (· < ·) ts)
  | .JumpI ts => decide (List.Chain' (· < ·) ts)
  | _ => true

/-- All `Jump`/`JumpI` bytecodes of a list have strictly increasing target
lists. -/
def JumpOk (bcs : List Bytecode) : Prop :=
  ∀ bc ∈ bcs, sortedJumps bc = true

/-- The `for i in 0..m used |= pop` part of the default `Unit` transfer. -/
def popN : Nat → NecessaryState → Bool × NecessaryState
  | 0, st => (false, st)
  | k + 1, st =>
      let p := st.pop
      let q := popN k p.2
      (p.1 || q.1, q.2)

/-- The `for i in 0..n push used` part of the default `Unit` transfer. -/
def pushN : Nat → Bool → NecessaryState → NecessaryState
  | 0, _, st => st
  | k + 1, u, st => pushN k u (st.push u)

/-- The `HashMap` of `determine_necessary_stateinfo` mapping a block's pc
to its index; built by insertion, so a later block with the same pc
shadows an earlier one (hence the reverse before `lookup`). -/
def mkOffsets (blocks : List Block) : List (Nat × Nat) :=
  (blocks.enum.map (fun p => (p.2.pc, p.1))).reverse

/-- `offsets.get(&pc)`: `none` models the `unwrap` panic on a miss. -/
def lookupOffset (offsets : List (Nat × Nat)) (pc : Nat) : Option Nat :=
  offsets.lookup pc

/-- `merge_target_states` from `block.rs`: join the entry necessary-states
of every target block.  `none` models the `unwrap` panic when a target pc
is not a block start, and the `states[0]` panic on a block without
states. -/
def merge_target_states (targets : List Nat) (blocks : List Block)
    (offsets : List (Nat × Nat)) : Option NecessaryState :=
  targets.foldlM
    (fun st pc =>
      match lookupOffset offsets pc with
      | none => none
      | some bid =>
        match blocks.get? bid with
        | none => none
        | some blk =>
          match blk.states.get? 0 with
          | none => none
          | some bs => some (st.join bs.necessary).1)
    NecessaryState.new

/-- `transfer_bytecode` from `block.rs`: the backwards liveness transfer
function, mapping the state after a bytecode to the state before it. -/
def transfer_bytecode (bytecode : Bytecode) (state : NecessaryState)
    (blocks : List Block) (offsets : List (Nat × Nat)) : Option NecessaryState :=
  match bytecode with
  | .Comment _ => some state
  | .Assert deps _ => some (deps.foldl (fun st dep => st.set dep true) state)
  | .Unit (.DUP n) =>
      let tmp := state.get 0 || state.get n
      let state1 := state.set n tmp
      some (state1.pop).2
  | .Unit (.SWAP n) =>
      let tmp := state.get 0
      let state1 := state.set 0 (state.get n)
      some (state1.set n tmp)
  | .Unit .MSTORE => some ((state.push false).push true)
  | .Unit .MSTORE8 => some ((state.push false).push true)
  | .Mask _ =>
      let p := state.pop
      some ((p.2.push p.1).push true)
  | .Unit insn =>
      match insn_produces insn with
      | none => none
      | some m =>
          let p := popN m state
          some (pushN insn.operands p.1 p.2)
  | .JumpI targets =>
      match merge_target_states targets blocks offsets with
      | none => none
      | some tstates =>
          let state1 := (state.join tstates).1
          some ((state1.push false).push true)
  | .Jump targets =>
      match merge_target_states targets blocks offsets with
      | none => none
      | some tstates =>
          let state1 := (state.join tstates).1
          some (state1.push true)

/-- The inner `for j in (0..m).rev()` loop of
`determine_necessary_stateinfo`: apply the transfer for each bytecode of
block `i` (given in reverse order in `js`) and join the running state into
the stored per-point necessary state. -/
def dnsBytecodes (offsets : List (Nat × Nat)) (i : Nat) :
    List Nat → NecessaryState → List Block → Bool → Option (List Block × Bool)
  | [], _, blocks, changed => some (blocks, changed)
  | j :: rest, state, blocks, changed =>
    match blocks.get? i with
    | none => none
    | some blk =>
      match blk.bytecodes.get? j with
      | none => none
      | some b =>
        match transfer_bytecode b state blocks offsets with
        | none => none
        | some state1 =>
          match blk.states.get? j with
          | none => none
          | some bs =>
            let joined := bs.necessary.join state1
            let blocks1 := blocks.set i
              { blk with states := blk.states.set j { bs with necessary := joined.1 } }
            dnsBytecodes offsets i rest state1 blocks1 (changed || joined.2)

/-- The `for i in (0..n).rev()` loop of `determine_necessary_stateinfo`:
seed the incoming state from the fall-through successor and walk the
bytecodes backwards. -/
def dnsBlocks (offsets : List (Nat × Nat)) :
    List Nat → List Block → Bool → Option (List Block × Bool)
  | [], blocks, changed => some (blocks, changed)
  | i :: rest, blocks, changed =>
    match blocks.get? i with
    | none => none
    | some blk =>
      let seed : Option NecessaryState :=
        match blk.next with
        | none => some NecessaryState.new
        | some pc =>
          match lookupOffset offsets pc with
          | none => none
          | some bid =>
            match blocks.get? bid with
            | none => none
            | some tblk =>
              match tblk.states.get? 0 with
              | none => none
              | some bs => some bs.necessary
      match seed with
      | none => none
      | some state =>
        match dnsBytecodes offsets i (List.range blk.bytecodes.length).reverse
            state blocks changed with
        | none => none
        | some (blocks1, changed1) => dnsBlocks offsets rest blocks1 changed1

/-- The `while changed && counter > 0` loop of
`determine_necessary_stateinfo`, with the safety counter as fuel.  Note
that when the counter reaches zero the loop simply stops and hands back
whatever partial state it has, even when `changed` is still `true`. -/
def dnsLoop (offsets : List (Nat × Nat)) (revIdx : List Nat) :
    Nat → List Block → Bool → Option (List Block × Bool)
  | 0, blocks, changed => some (blocks, changed)
  | counter + 1, blocks, changed =>
    if changed then
      match dnsBlocks offsets revIdx blocks false with
      | none => none
      | some (blocks1, changed1) => dnsLoop offsets revIdx counter blocks1 changed1
    else some (blocks, changed)

/-- `determine_necessary_stateinfo` from `block.rs`, returning the updated
blocks together with the final value of the `changed` flag (the loop
variable at exit); the safety counter starts at 100 as in the source. -/
def determine_necessary_stateinfo (blocks : List Block) : Option (List Block × Bool) :=
  let offsets := mkOffsets blocks
  dnsLoop offsets (List.range blocks.length).reverse 100 blocks true

/-- A single self-looping block: its one bytecode jumps back to its own
pc, so each liveness round reads the block's own entry necessary-state,
pushes one more `true` bit and joins the strictly larger stack back in;
the join therefore changes something in every round. -/
def c7Block : Block :=
  { pc := 0
    states := [{ states := [], necessary := NecessaryState.new }]
    bytecodes := [.Jump [0]]
    next := none }

/-- `ControlFlowGraph` from `cfg.rs`.  The underlying basic-block graph is
external: `lookup_pc` (pc to graph node), the per-node dominator sets and
the per-node transitive-closure sets appear as data.  The field holding
the reachability sets is named `reachSets` here because the source method
`reaches` shares its name. -/
structure ControlFlowGraph where
  lookup_pc : Nat → Nat
  dominators : List (List Nat)
  reachSets : List (List Nat)
  roots : List Nat

/-- `ControlFlowGraph::dominates`. -/
def ControlFlowGraph.dominates (cfg : ControlFlowGraph) (parent child : Nat) : Bool :=
  let gp := cfg.lookup_pc parent
  let gc := cfg.lookup_pc child
  (cfg.dominators.getD gc []).contains gp

/-- `ControlFlowGraph::reaches`. -/
def ControlFlowGraph.reaches (cfg : ControlFlowGraph) (parent child : Nat) : Bool :=
  let gp := cfg.lookup_pc parent
  let gc := cfg.lookup_pc child
  parent == child || (cfg.reachSets.getD gp []).contains gc

/-- `ControlFlowGraph::owns`. -/
def ControlFlowGraph.owns (cfg : ControlFlowGraph) (root : Nat) (blk : Block) : Bool :=
  if cfg.dominates root blk.pc then
    cfg.roots.all (fun r => !(r != root && cfg.dominates root r && cfg.reaches r blk.pc))
  else false

/-- The liveness transfer the C3 claim describes for `MSTORE`/`MSTORE8`:
pop one item, then push `false` and `true`. -/
def mstoreClaimTransfer (state : NecessaryState) : NecessaryState :=
  (((state.pop).2.push false).push true)

/-- C1: `ControlFlowGraph::owns(r, b)` returns true iff `r` dominates
`b.pc` and no other registered root `r' ≠ r` satisfies both "`r`
dominates `r'`" and "`r'` reaches `b.pc`". -/
theorem C1_owns_iff (cfg : ControlFlowGraph) (root : Nat) (blk : Block) :
    cfg.owns root blk = true ↔
      (cfg.dominates root blk.pc = true ∧
        ∀ r ∈ cfg.roots,
          ¬(r ≠ root ∧ cfg.dominates root r = true ∧ cfg.reaches r blk.pc = true)) := by
  unfold ControlFlowGraph.owns
  by_cases h : cfg.dominates root blk.pc = true
  · simp only [h, if_true, true_and, List.all_eq_true]
    constructor
    · intro hall r hr hcon
      have h2 := hall r hr
      rw [Bool.not_eq_true'] at h2
      have h3 : (r != root && cfg.dominates root r && cfg.reaches r blk.pc) = true := by
        simp [bne_iff_ne, hcon.1, hcon.2.1, hcon.2.2]
      rw [h3] at h2
      exact absurd h2 (by simp)
    · intro hall r hr
      rw [Bool.not_eq_true']
      by_cases h1 : r = root
      · simp [h1]
      · by_cases h2 : cfg.dominates root r = true
        · by_cases h3 : cfg.reaches r blk.pc = true
          · exact absurd ⟨h1, h2, h3⟩ (hall r hr)
          · rw [Bool.not_eq_true] at h3
            simp [h3]
        · rw [Bool.not_eq_true] at h2
          simp [h2]
  · simp only [Bool.not_eq_true] at h
    simp [h]

/-- Helper: reading an element of `(List.range n).map f`. -/
theorem getD_range_map {α : Type} (f : Nat → α) (n i : Nat) (d : α) :
    ((List.range n).map f).getD i d = if i < n then f i else d := by
  by_cases h : i < n
  · rw [List.getD_eq_getElem?_getD]
    simp [List.getElem?_map, List.getElem?_range, h]
  · rw [List.getD_eq_getElem?_getD, List.getElem?_eq_none]
    · simp [h]
    · simpa using Nat.le_of_not_lt h

/-- Helper: `join_word` yields a known value exactly when both inputs
hold that same value. -/
theorem join_word_eq_some {T : Type} [DecidableEq T] (x y : Option T) (v : T) :
    join_word x y = some v ↔ x = some v ∧ y = some v := by
  cases x with
  | none => simp [join_word]
  | some a =>
    cases y with
    | none => simp [join_word]
    | some b =>
      by_cases hab : a = b
      · subst hab; simp [join_word]
      · simp [join_word, hab]
        intro h1 h2
        exact absurd (h1.trans h2.symm) hab

/-- C2: after `a.join(b)` the stack frame has length
`min |a.stack| |b.stack|`; a slot of the result holds `some v` exactly
when both inputs hold `some v` there (and is `none` in every other
case); the free-memory pointer is combined by the same rule. -/
theorem C2_join_spec (a b : AbstractState) :
    (a.join b).stack_frame.length = min a.stack_frame.length b.stack_frame.length ∧
    (∀ i v, (a.join b).stack_frame.getD i none = some v ↔
      (i < min a.stack_frame.length b.stack_frame.length ∧
        a.stack_frame.getD i none = some v ∧ b.stack_frame.getD i none = some v)) ∧
    (∀ v, (a.join b).freemem_ptr = some v ↔
      (a.freemem_ptr = some v ∧ b.freemem_ptr = some v)) := by
  refine ⟨by simp [AbstractState.join, join_stack], ?_, ?_⟩
  · intro i v
    have hg : (a.join b).stack_frame.getD i none =
        if i < min a.stack_frame.length b.stack_frame.length then
          join_word (a.stack_frame.getD i none) (b.stack_frame.getD i none) else none := by
      simp only [AbstractState.join, join_stack]
      exact getD_range_map _ _ i none
    rw [hg]
    by_cases h : i < min a.stack_frame.length b.stack_frame.length
    · simp only [h, if_true, true_and]
      exact join_word_eq_some _ _ v
    · simp [h]
  · intro v
    exact join_word_eq_some _ _ v

/-- C3 counterexample: on the after-state `[true]` the source transfer for
`Unit(MSTORE)` yields `[true, false, true]` (it never pops), while the
claimed pop-then-push-push procedure yields `[false, true]`. -/
theorem C3_counterexample :
    transfer_bytecode (.Unit .MSTORE) ⟨[true]⟩ [] [] ≠
      some (mstoreClaimTransfer ⟨[true]⟩) := by
  decide

/-- C3 (amended): the backwards transfer for `Unit(MSTORE)` and
`Unit(MSTORE8)` pushes `false` (stored value) and then `true` (address)
onto the after-state, without popping anything: the before-state's stack
is the after-state's stack extended by those two bits. -/
theorem C3_mstore_transfer (state : NecessaryState) (blocks : List Block)
    (offsets : List (Nat × Nat)) :
    transfer_bytecode (.Unit .MSTORE) state blocks offsets =
      some ⟨state.stack ++ [false, true]⟩ ∧
    transfer_bytecode (.Unit .MSTORE8) state blocks offsets =
      some ⟨state.stack ++ [false, true]⟩ := by
  constructor <;> simp [transfer_bytecode, NecessaryState.push]

/-- C4: the low-24-bit mask constant is defined in the source
(`MASK_U24`) yet omitted from `as_bit_mask`'s match, so an `AND` whose
consensus entry state has top-of-stack `0xffffff` is translated to
`Unit(AND)` instead of `Mask(24)`; every other canonical mask width is
recognised. -/
theorem C4_mask24_missing :
    translate_insn .AND false [⟨none, [some (2 ^ 24 - 1)]⟩] = some (.Unit .AND, false) ∧
    as_bit_mask MASK_U24 = 0 ∧
    translate_insn .AND false [⟨none, [some (2 ^ 1 - 1)]⟩] = some (.Mask 1, false) ∧
    translate_insn .AND false [⟨none, [some (2 ^ 5 - 1)]⟩] = some (.Mask 5, false) ∧
    translate_insn .AND false [⟨none, [some (2 ^ 8 - 1)]⟩] = some (.Mask 8, false) ∧
    translate_insn .AND false [⟨none, [some (2 ^ 16 - 1)]⟩] = some (.Mask 16, false) ∧
    translate_insn .AND false [⟨none, [some (2 ^ 32 - 1)]⟩] = some (.Mask 32, false) ∧
    translate_insn .AND false [⟨none, [some (2 ^ 64 - 1)]⟩] = some (.Mask 64, false) ∧
    translate_insn .AND false [⟨none, [some (2 ^ 128 - 1)]⟩] = some (.Mask 128, false) ∧
    translate_insn .AND false [⟨none, [some (2 ^ 160 - 1)]⟩] = some (.Mask 160, false) := by
  decide

/-- Helper: the elementwise description of `cancelStack` when the second
frame is no longer than the first. -/
theorem cancelStack_spec :
    ∀ (t s : List (Option Nat)), t.length ≤ s.length →
      ∃ r, cancelStack s t = some r ∧ r.length = s.length ∧
        ∀ i, r.getD i none =
          if i < t.length ∧ (s.getD i none).isSome ∧ (t.getD i none).isSome
          then none else s.getD i none := by
  intro t
  induction t with
  | nil =>
      intro s _
      refine ⟨s, ?_, rfl, fun i => by simp⟩
      cases s <;> rfl
  | cons y t' ih =>
      intro s hlen
      cases s with
      | nil => simp at hlen
      | cons x s' =>
          obtain ⟨r', hr', hlen', hel'⟩ := ih s' (by simpa using hlen)
          refine ⟨(if x ≠ none ∧ y ≠ none then none else x) :: r', ?_, by simpa using hlen', ?_⟩
          · simp [cancelStack, hr']
          · intro i
            cases i with
            | zero =>
                simp only [List.getD_cons_zero, List.length_cons]
                by_cases hx : x = none
                · simp [hx]
                · by_cases hy : y = none
                  · simp [hx, hy]
                  · simp [hx, hy, Option.isSome_iff_ne_none]
            | succ j =>
                simp only [List.getD_cons_succ, List.length_cons, Nat.succ_lt_succ_iff]
                exact hel' j

/-- C9 counterexample: when `other`'s stack frame is longer than `self`'s,
`AbstractState::cancel` indexes `self.stack_frame` out of bounds and
panics (modelled as `none`): there is no post-state at all, refuting the
claim for this pair. -/
theorem C9_counterexample :
    AbstractState.cancel ⟨none, []⟩ ⟨none, [some 0]⟩ = none := by
  rfl

/-- C9 (amended): whenever `|y.stack| ≤ |x.stack|` (otherwise the call
panics on an out-of-bounds index), `x.cancel(y)` returns a state whose
slot `i` is `none` when both inputs held `some` there, and is unchanged
in every other case; the free-memory pointer is unchanged. -/
theorem C9_cancel_spec (x y : AbstractState)
    (h : y.stack_frame.length ≤ x.stack_frame.length) :
    ∃ z, x.cancel y = some z ∧ z.freemem_ptr = x.freemem_ptr ∧
      z.stack_frame.length = x.stack_frame.length ∧
      ∀ i, z.stack_frame.getD i none =
        if i < y.stack_frame.length ∧ (x.stack_frame.getD i none).isSome ∧
            (y.stack_frame.getD i none).isSome
        then none else x.stack_frame.getD i none := by
  obtain ⟨r, hr, hlen, hel⟩ := cancelStack_spec y.stack_frame x.stack_frame h
  exact ⟨{ x with stack_frame := r }, by simp [AbstractState.cancel, hr], rfl, hlen, hel⟩

/-- C9 witness: a concrete pair with `|y.stack| ≤ |x.stack|`. -/
theorem C9_witness :
    ∃ z, AbstractState.cancel ⟨some 1, [some 2, some 3, none]⟩ ⟨none, [some 9, none]⟩ =
        some z ∧
      z.freemem_ptr = (⟨some 1, [some 2, some 3, none]⟩ : AbstractState).freemem_ptr ∧
      z.stack_frame.length =
        (⟨some 1, [some 2, some 3, none]⟩ : AbstractState).stack_frame.length ∧
      ∀ i, z.stack_frame.getD i none =
        if i < (⟨none, [some 9, none]⟩ : AbstractState).stack_frame.length ∧
            ((⟨some 1, [some 2, some 3, none]⟩ : AbstractState).stack_frame.getD i none).isSome ∧
            ((⟨none, [some 9, none]⟩ : AbstractState).stack_frame.getD i none).isSome
        then none
        else (⟨some 1, [some 2, some 3, none]⟩ : AbstractState).stack_frame.getD i none :=
  C9_cancel_spec ⟨some 1, [some 2, some 3, none]⟩ ⟨none, [some 9, none]⟩ (by decide)

/-- C10: reading any index at or above the tracked height yields `false`,
and popping an empty `NecessaryState` yields `false`; both operations are
total. -/
theorem C10_get_pop_total (s : NecessaryState) (i : Nat) (h : s.stack.length ≤ i) :
    s.get i = false ∧ (NecessaryState.pop ⟨[]⟩).1 = false := by
  refine ⟨?_, rfl⟩
  simp only [NecessaryState.get]
  rw [if_neg]
  omega

/-- C10 witness: a stack of height 1 queried at index 5. -/
theorem C10_witness :
    NecessaryState.get ⟨[true]⟩ 5 = false ∧ (NecessaryState.pop ⟨[]⟩).1 = false :=
  C10_get_pop_total ⟨[true]⟩ 5 (by decide)

/-- Helper: `dedupRun` keeps the first element of a nonempty list. -/
theorem dedupRun_head {α : Type} [DecidableEq α] (x : α) (l : List α) :
    (dedupRun (x :: l)).head? = some x := by
  induction l generalizing x with
  | nil => rfl
  | cons y rest ih =>
      by_cases h : x = y
      · rw [show dedupRun (x :: y :: rest) = dedupRun (y :: rest) by simp [dedupRun, h]]
        rw [ih y, h]
      · simp [dedupRun, h]

/-- Helper: after `Vec::dedup`, no two adjacent elements are equal. -/
theorem dedupRun_chain_ne {α : Type} [DecidableEq α] :
    ∀ l : List α, List.Chain' (· ≠ ·) (dedupRun l) := by
  intro l
  induction l using dedupRun.induct with
  | case1 => simp [dedupRun]
  | case2 x => simp [dedupRun]
  | case3 y rest ih =>
      rw [show dedupRun (y :: y :: rest) = dedupRun (y :: rest) by simp [dedupRun]]
      exact ih
  | case4 x y rest h ih =>
      rw [show dedupRun (x :: y :: rest) = x :: dedupRun (y :: rest) by simp [dedupRun, h]]
      rw [List.chain'_cons']
      refine ⟨?_, ih⟩
      intro b hb
      rw [dedupRun_head y rest] at hb
      simp at hb
      exact hb ▸ h

/-- C8 counterexample: `Vec::dedup` removes only consecutive duplicates,
so the per-offset state list `[a, b, a]` (with `a ≠ b`) survives
unchanged and holds equal states at the distinct positions 0 and 2. -/
theorem C8_counterexample :
    (BytecodeAnalysis.from_insns
        [[⟨none, []⟩, ⟨none, [none]⟩, ⟨none, []⟩]]).states =
      [[⟨none, []⟩, ⟨none, [none]⟩, ⟨none, []⟩]] ∧
    (⟨none, []⟩ : AbstractState) ≠ ⟨none, [none]⟩ := by
  decide

/-- C8 (amended): every per-offset state list produced by
`BytecodeAnalysis::from_insns` contains no two *adjacent* equal states
(non-adjacent duplicates may survive, since `Vec::dedup` only removes
consecutive runs). -/
theorem C8_dedup_adjacent (trace : List (List AbstractState)) (l : List AbstractState)
    (hl : l ∈ (BytecodeAnalysis.from_insns trace).states) :
    List.Chain' (· ≠ ·) l := by
  simp only [BytecodeAnalysis.from_insns, List.mem_map] at hl
  obtain ⟨t, _, rfl⟩ := hl
  exact dedupRun_chain_ne t

/-- C8 witness: a run of two equal states collapses, leaving an
adjacent-distinct list. -/
theorem C8_witness :
    List.Chain' (· ≠ ·) ([⟨none, []⟩, ⟨none, [none]⟩] : List AbstractState) :=
  C8_dedup_adjacent [[⟨none, []⟩, ⟨none, []⟩, ⟨none, [none]⟩]]
    [⟨none, []⟩, ⟨none, [none]⟩] (by decide)

set_option maxRecDepth 100000 in
/-- C7 counterexample: on the self-looping block `c7Block` every liveness
round still changes a join when the safety counter runs out (the final
`changed` flag is `true`), yet `determine_necessary_stateinfo` returns a
normal result: nothing aborts and no diagnostic is produced; the partial
non-fixpoint tables are handed on silently. -/
theorem C7_counterexample :
    (determine_necessary_stateinfo [c7Block]).map Prod.snd = some true := by
  rfl

set_option maxRecDepth 100000 in
/-- C7 (amended): when the safety counter of the liveness fixpoint is
exhausted while joins are still changing, the loop silently returns the
current partial (non-fixpoint) state instead of aborting: with fuel 0 the
loop hands back its input unchanged even though `changed` is still
`true`, and `c7Block` exhibits an input that actually reaches this case
with a produced (`some`) result. -/
theorem C7_silent_exhaustion :
    (∀ (offsets : List (Nat × Nat)) (revIdx : List Nat) (blocks : List Block),
        dnsLoop offsets revIdx 0 blocks true = some (blocks, true)) ∧
    (determine_necessary_stateinfo [c7Block]).isSome = true := by
  refine ⟨fun _ _ _ => rfl, ?_⟩
  rfl

theorem presum_succ (insns : List Insn) (i : Nat) (insn : Insn)
    (h : insns.get? i = some insn) :
    presum insns (i + 1) = presum insns i + insn.length := by
  unfold presum
  rw [List.take_succ]
  simp [List.get?_eq_getElem?] at h
  simp [h]

theorem presum_succ_ge (insns : List Insn) (i : Nat) :
    presum insns i ≤ presum insns (i + 1) := by
  cases h : insns.get? i with
  | none =>
      unfold presum
      rw [List.take_succ]
      simp [List.get?_eq_getElem?] at h
      simp [h]
  | some insn => rw [presum_succ insns i insn h]; omega

theorem presum_le_presum (insns : List Insn) (i j : Nat) (h : i ≤ j) :
    presum insns i ≤ presum insns j := by
  induction j with
  | zero =>
      have : i = 0 := by omega
      rw [this]
  | succ k ih =>
      rcases Nat.lt_or_ge i (k + 1) with h1 | h1
      · exact le_trans (ih (by omega)) (presum_succ_ge insns k)
      · have : i = k + 1 := by omega
        rw [this]

theorem presum_total (insns : List Insn) :
    presum insns insns.length = totalLength insns := by
  unfold presum totalLength
  rw [List.take_length]

theorem spanStart_cons (s : Nat × Nat) (spans : List (Nat × Nat)) (o : Nat) :
    spanStart (s :: spans) o = (if s.1 = o then 1 else 0) + spanStart spans o := by
  by_cases h : s.1 = o
  · simp [spanStart, List.filter_cons, h]
    omega
  · simp [spanStart, List.filter_cons, h]

theorem spanInside_cons (s : Nat × Nat) (spans : List (Nat × Nat)) (o : Nat) :
    spanInside (s :: spans) o =
      (if s.1 < o ∧ o < s.2 then 1 else 0) + spanInside spans o := by
  by_cases h1 : s.1 < o
  · by_cases h2 : o < s.2
    · simp [spanInside, List.filter_cons, h1, h2]
      omega
    · simp [spanInside, List.filter_cons, h1, h2]
  · simp [spanInside, List.filter_cons, h1]

theorem spanStart_eq_zero (spans : List (Nat × Nat)) (o : Nat)
    (h : ∀ p ∈ spans, p.1 ≠ o) : spanStart spans o = 0 := by
  simp only [spanStart, List.length_eq_zero, List.filter_eq_nil_iff]
  intro p hp
  simp [h p hp]

theorem spanInside_eq_zero (spans : List (Nat × Nat)) (o : Nat)
    (h : ∀ p ∈ spans, ¬(p.1 < o)) : spanInside spans o = 0 := by
  simp only [spanInside, List.length_eq_zero, List.filter_eq_nil_iff]
  intro p hp
  simp [h p hp]

theorem spans_fst_ge (b : Nat) (c : List Nat) (hc : List.Chain' (· < ·) (b :: c)) :
    ∀ p ∈ (b :: c).zip c, b ≤ p.1 := by
  induction c generalizing b with
  | nil => simp
  | cons d c1 ih =>
      intro p hp
      simp only [List.zip_cons_cons, List.mem_cons] at hp
      rcases hp with rfl | hp
      · exact le_refl b
      · have hbd : b < d := (List.chain'_cons.mp hc).1
        have hc1 : List.Chain' (· < ·) (d :: c1) := (List.chain'_cons.mp hc).2
        exact le_of_lt (lt_of_lt_of_le hbd (ih d hc1 p hp))

theorem cuts_cover :
    ∀ (c : List Nat) (a o : Nat), List.Chain' (· < ·) (a :: c) →
      a ≤ o → o < (a :: c).getLast (List.cons_ne_nil a c) →
      spanStart ((a :: c).zip c) o + spanInside ((a :: c).zip c) o = 1 := by
  intro c
  induction c with
  | nil =>
      intro a o _ h1 h2
      simp at h2
      omega
  | cons b c1 ih =>
      intro a o hc h1 h2
      have hab : a < b := (List.chain'_cons.mp hc).1
      have hc1 : List.Chain' (· < ·) (b :: c1) := (List.chain'_cons.mp hc).2
      have hlast : (a :: b :: c1).getLast (List.cons_ne_nil a (b :: c1)) =
          (b :: c1).getLast (List.cons_ne_nil b c1) := by
        rw [List.getLast_cons]
      rw [hlast] at h2
      rw [List.zip_cons_cons, spanStart_cons, spanInside_cons]
      by_cases hob : o < b
      · have htail1 : spanStart ((b :: c1).zip c1) o = 0 := by
          apply spanStart_eq_zero
          intro p hp
          have := spans_fst_ge b c1 hc1 p hp
          omega
        have htail2 : spanInside ((b :: c1).zip c1) o = 0 := by
          apply spanInside_eq_zero
          intro p hp
          have := spans_fst_ge b c1 hc1 p hp
          omega
        rw [htail1, htail2]
        rcases Nat.eq_or_lt_of_le h1 with rfl | hlt
        · simp [hob]
        · have hne : ¬(a = o) := by omega
          simp [hne, hlt, hob]
      · have hhead1 : ¬(a = o) := by omega
        have hhead2 : ¬(a < o ∧ o < b) := by omega
        simp only [hhead1, if_false, hhead2]
        have := ih b o hc1 (by omega) h2
        omega

theorem i2bLoop_spec (insns : List Insn) (analysis : Nat → List AbstractState)
    (precheck : Insn → List Bytecode → List Bytecode) (index : Nat) :
    ∀ (n pc i : Nat) (blk : Block) (done : Bool)
      (out : Nat × Nat × Nat × Block × Bool),
      i2bLoop insns analysis precheck index n pc i blk done = some out →
      i ≤ out.2.2.1 ∧
      (i ≤ insns.length → out.2.2.1 ≤ insns.length) ∧
      out.2.1 + presum insns i = pc + presum insns out.2.2.1 ∧
      out.2.2.2.1.pc = blk.pc ∧
      ((done = false ∧ i < insns.length ∧ i = index ∧ 1 ≤ n) → i < out.2.2.1) := by
  intro n
  induction n with
  | zero =>
      intro pc i blk done out h
      rw [i2bLoop] at h
      obtain rfl : (0, pc, i, blk, done) = out := Option.some.inj h
      refine ⟨le_refl i, fun h => h, rfl, rfl, ?_⟩
      intro hcon
      omega
  | succ m ih =>
      intro pc i blk done out h
      rw [i2bLoop] at h
      by_cases hdone : done = true
      · rw [if_pos hdone] at h
        obtain rfl : (m + 1, pc, i, blk, done) = out := Option.some.inj h
        refine ⟨le_refl i, fun h => h, rfl, rfl, ?_⟩
        intro hcon
        rw [hcon.1] at hdone
        exact absurd hdone (by simp)
      · rw [if_neg hdone] at h
        cases hget : insns.get? i with
        | none =>
            rw [hget] at h
            obtain rfl : (m + 1, pc, i, blk, done) = out := Option.some.inj h
            have hlen : insns.length ≤ i := by
              rw [← List.get?_eq_none]
              exact hget
            refine ⟨le_refl i, fun h => h, rfl, rfl, ?_⟩
            intro hcon
            omega
        | some insn =>
            simp only [hget] at h
            have hi : i < insns.length := by
              by_contra hx
              rw [List.get?_eq_none.mpr (by omega)] at hget
              exact absurd hget (by simp)
            by_cases hjd : insn = Insn.JUMPDEST
            · rw [if_pos hjd] at h
              by_cases hidx : i = index
              · rw [if_pos hidx] at h
                obtain ⟨h1, h2, h3, h4, h5⟩ := ih _ _ _ _ _ h
                refine ⟨by omega, fun _ => h2 (by omega), ?_, by simpa [padStates] using h4, ?_⟩
                · rw [presum_succ insns i insn hget] at h3
                  omega
                · intro _
                  omega
              · rw [if_neg hidx] at h
                obtain rfl : _ = out := Option.some.inj h
                refine ⟨le_refl i, fun h => h, rfl, rfl, ?_⟩
                intro hcon
                exact absurd hcon.2.2.1 hidx
            · rw [if_neg hjd] at h
              cases htr : translate_insn insn done (analysis i) with
              | none =>
                  rw [htr] at h
                  exact absurd h (by simp)
              | some r =>
                  rw [htr] at h
                  obtain ⟨bc, done1⟩ := r
                  obtain ⟨h1, h2, h3, h4, h5⟩ := ih _ _ _ _ _ h
                  refine ⟨by omega, fun _ => h2 (by omega), ?_,
                    by simpa [padStates] using h4, ?_⟩
                  · rw [presum_succ insns i insn hget] at h3
                    omega
                  · intro _
                    omega

theorem insns_to_block_spec (n pc index : Nat) (insns : List Insn)
    (analysis : Nat → List AbstractState)
    (precheck : Insn → List Bytecode → List Bytecode)
    (pc1 index1 : Nat) (blk : Block)
    (h : insns_to_block n pc index insns analysis precheck = some (pc1, index1, blk)) :
    index ≤ index1 ∧ (index ≤ insns.length → index1 ≤ insns.length) ∧
    pc1 + presum insns index = pc + presum insns index1 ∧
    blk.pc = pc ∧
    ((index < insns.length ∧ 1 ≤ n) → index < index1) := by
  unfold insns_to_block at h
  cases hloop : i2bLoop insns analysis precheck index n pc index
      { pc := pc, states := [], bytecodes := [], next := none } false with
  | none => rw [hloop] at h; exact absurd h (by simp)
  | some out =>
      rw [hloop] at h
      obtain ⟨n1, pc2, i2, blk2, done2⟩ := out
      obtain ⟨h1, h2, h3, h4, h5⟩ :=
        i2bLoop_spec insns analysis precheck index n pc index _ false _ hloop
      simp only at h1 h2 h3 h4 h5
      have hinj := Option.some.inj h
      rw [Prod.mk.injEq, Prod.mk.injEq] at hinj
      obtain ⟨rfl, rfl, rfl⟩ := hinj
      refine ⟨h1, h2, h3, ?_, fun hc => h5 ⟨trivial, hc.1, trivial, hc.2⟩⟩
      by_cases hcond : n1 = 0 ∧ done2 = false
      · simp [hcond, h4]
      · simp [hcond, h4]

theorem i2bsLoop_tiles (n : Nat) (insns : List Insn)
    (analysis : Nat → List AbstractState)
    (precheck : Insn → List Bytecode → List Bytecode)
    (hn : 1 ≤ n) (hlen : ∀ insn ∈ insns, 1 ≤ insn.length) :
    ∀ (fuel pc index : Nat) (acc blocks : List Block),
      index ≤ insns.length → pc = presum insns index →
      i2bsLoop n insns analysis precheck fuel pc index acc = some blocks →
      ∃ tail, blocks = acc ++ tail ∧
        List.Chain' (· < ·) (tail.map Block.pc ++ [totalLength insns]) ∧
        (tail.map Block.pc ++ [totalLength insns]).head? = some pc := by
  intro fuel
  induction fuel with
  | zero =>
      intro pc index acc blocks _ _ h
      rw [i2bsLoop] at h
      exact absurd h (by simp)
  | succ f ih =>
      intro pc index acc blocks hidx hpc h
      rw [i2bsLoop] at h
      by_cases hcond : 0 < n ∧ index < insns.length
      · rw [if_pos hcond] at h
        cases hblk : insns_to_block n pc index insns analysis precheck with
        | none => rw [hblk] at h; exact absurd h (by simp)
        | some r =>
            obtain ⟨pc1, index1, blk⟩ := r
            rw [hblk] at h
            obtain ⟨b1, b2, b3, b4, b5⟩ :=
              insns_to_block_spec n pc index insns analysis precheck pc1 index1 blk hblk
            have hi1 : index < index1 := b5 ⟨hcond.2, hn⟩
            have hile : index1 ≤ insns.length := b2 hidx
            have hpc1 : pc1 = presum insns index1 := by
              rw [hpc] at b3
              omega
            have hlt : pc < pc1 := by
              obtain ⟨insn, hg⟩ : ∃ insn, insns.get? index = some insn := by
                cases hg : insns.get? index with
                | none =>
                    rw [List.get?_eq_none] at hg
                    omega
                | some insn => exact ⟨insn, rfl⟩
              have hmem : insn ∈ insns := List.get?_mem hg
              have hlen1 : 1 ≤ insn.length := hlen insn hmem
              have hstep : presum insns index + insn.length = presum insns (index + 1) := by
                rw [presum_succ insns index insn hg]
              have hmono : presum insns (index + 1) ≤ presum insns index1 :=
                presum_le_presum insns (index + 1) index1 (by omega)
              omega
            obtain ⟨tail1, ht1, ht2, ht3⟩ :=
              ih pc1 index1 (acc ++ [blk]) blocks hile hpc1 h
            refine ⟨blk :: tail1, by simp [ht1], ?_, ?_⟩
            · rw [List.map_cons, List.cons_append, List.chain'_cons']
              refine ⟨?_, ht2⟩
              intro b hb
              rw [ht3] at hb
              simp only [Option.mem_def, Option.some.injEq] at hb
              rw [← hb, b4]
              exact hlt
            · simp [b4]
      · rw [if_neg hcond] at h
        obtain rfl : acc = blocks := Option.some.inj h
        have hix : index = insns.length := by omega
        refine ⟨[], by simp, by simp, ?_⟩
        simp [hpc, hix, presum_total]

/-- C5 (amended): for block budgets `n ≥ 1` and instruction sequences in
which every instruction occupies at least one byte, the produced blocks
tile the stream: every byte offset below the end of the last translated
instruction is the starting pc of exactly one block or lies strictly
inside exactly one block (a block's byte span runs from its pc to the
next block's pc, or to the stream end for the last block). -/
theorem C5_tiling (n : Nat) (insns : List Insn)
    (analysis : Nat → List AbstractState)
    (precheck : Insn → List Bytecode → List Bytecode) (blocks : List Block)
    (hn : 1 ≤ n) (hlen : ∀ insn ∈ insns, 1 ≤ insn.length)
    (hrun : insns_to_blocks n insns analysis precheck = some blocks) :
    ∀ o < totalLength insns,
      startCount blocks (totalLength insns) o +
        insideCount blocks (totalLength insns) o = 1 := by
  obtain ⟨tail, htail, hchain, hhead⟩ :=
    i2bsLoop_tiles n insns analysis precheck hn hlen
      (insns.length + 1) 0 0 [] blocks (by omega) (by simp [presum]) hrun
  rw [List.nil_append] at htail
  subst htail
  intro o ho
  have hc : blockCuts blocks (totalLength insns) =
      blocks.map Block.pc ++ [totalLength insns] := rfl
  cases hcc : blocks.map Block.pc ++ [totalLength insns] with
  | nil => exact absurd hcc (by simp)
  | cons a rest =>
      have ha : a = 0 := by
        rw [hcc] at hhead
        simp at hhead
        omega
      have hch : List.Chain' (· < ·) (a :: rest) := by rw [← hcc]; exact hchain
      have htl : (a :: rest).getLast (List.cons_ne_nil a rest) = totalLength insns := by
        have h1 : (a :: rest).getLast? = some (totalLength insns) := by
          rw [← hcc]
          exact List.getLast?_concat _
        rw [List.getLast?_eq_getLast _ (List.cons_ne_nil a rest)] at h1
        exact Option.some.inj h1
      have hcover := cuts_cover rest a o hch (by omega) (by rw [htl]; exact ho)
      have hspans : blockSpans blocks (totalLength insns) = (a :: rest).zip rest := by
        unfold blockSpans
        rw [hc, hcc]
        rfl
      unfold startCount insideCount
      rw [hspans]
      exact hcover

/-- C5 counterexample: the claim quantifies over every instruction
sequence, but a zero-byte instruction (here an empty `DATA`; the virtual
`HAVOC` behaves the same) lets two blocks start at the same byte offset:
on `[DATA [], STOP]` with any budget the builder emits a block at pc 0
for the `DATA` and another block at pc 0 for the `STOP`, so offset 0
(which is below the stream end 1) is the starting pc of two blocks, not
exactly one. -/
theorem C5_counterexample :
    totalLength [Insn.DATA [], Insn.STOP] = 1 ∧
    (insns_to_blocks 2 [Insn.DATA [], Insn.STOP] (fun _ => [])
        (fun _ bcs => bcs)).map (fun bs => startCount bs 1 0) = some 2 := by
  constructor
  · rfl
  · rfl

/-- C5 witness: `PUSH1 0x01; STOP` with budget 2 produces the single
block `[0, 3)`; offset 1 lies strictly inside exactly one block. -/
theorem C5_witness :
    startCount [⟨0, [⟨[], ⟨[]⟩⟩, ⟨[], ⟨[]⟩⟩],
        [.Unit (.PUSH [1]), .Unit .STOP], none⟩]
      (totalLength [Insn.PUSH [1], Insn.STOP]) 1 +
    insideCount [⟨0, [⟨[], ⟨[]⟩⟩, ⟨[], ⟨[]⟩⟩],
        [.Unit (.PUSH [1]), .Unit .STOP], none⟩]
      (totalLength [Insn.PUSH [1], Insn.STOP]) 1 = 1 :=
  C5_tiling 2 [Insn.PUSH [1], Insn.STOP] (fun _ => []) (fun _ bcs => bcs)
    [⟨0, [⟨[], ⟨[]⟩⟩, ⟨[], ⟨[]⟩⟩], [.Unit (.PUSH [1]), .Unit .STOP], none⟩]
    (by decide) (by decide) (by rfl) 1 (by decide)

theorem dedupRun_sublist {α : Type} [DecidableEq α] :
    ∀ l : List α, List.Sublist (dedupRun l) l := by
  intro l
  induction l using dedupRun.induct with
  | case1 => simp [dedupRun]
  | case2 x => simp [dedupRun]
  | case3 y rest ih =>
      rw [show dedupRun (y :: y :: rest) = dedupRun (y :: rest) from by simp [dedupRun]]
      exact ih.cons y
  | case4 x y rest h ih =>
      rw [show dedupRun (x :: y :: rest) = x :: dedupRun (y :: rest) from by
        simp [dedupRun, h]]
      exact ih.cons₂ x

theorem chain_lt_of_pairwise_le_chain_ne :
    ∀ l : List Nat, List.Pairwise (· ≤ ·) l → List.Chain' (· ≠ ·) l →
      List.Chain' (· < ·) l := by
  intro l
  induction l with
  | nil => intro _ _; simp
  | cons a l ih =>
      intro hp hne
      rw [List.chain'_cons'] at hne ⊢
      obtain ⟨h1, h2⟩ := hne
      refine ⟨?_, ih (List.Pairwise.of_cons hp) h2⟩
      intro b hb
      have hble : a ≤ b :=
        List.rel_of_pairwise_cons hp (List.mem_of_mem_head? hb)
      exact lt_of_le_of_ne hble (h1 b hb)

/-- C6 core: a target list produced by `jump_targets` (sort then dedup)
is strictly increasing. -/
theorem jump_targets_sorted (states : List AbstractState) (ts : List Nat)
    (h : jump_targets states = some ts) : List.Chain' (· < ·) ts := by
  unfold jump_targets at h
  cases hm : states.mapM (fun s => (s.stack_frame.get? 0).bind id) with
  | none => rw [hm] at h; exact absurd h (by simp)
  | some targets =>
      rw [hm] at h
      obtain rfl : dedupRun (targets.insertionSort (· ≤ ·)) = ts := Option.some.inj h
      apply chain_lt_of_pairwise_le_chain_ne
      · exact List.Pairwise.sublist (dedupRun_sublist _)
          (List.sorted_insertionSort (· ≤ ·) targets)
      · exact dedupRun_chain_ne _

theorem translate_insn_sortedJumps (insn : Insn) (done : Bool)
    (states : List AbstractState) (bc : Bytecode) (d : Bool)
    (h : translate_insn insn done states = some (bc, d)) :
    sortedJumps bc = true := by
  cases insn with
  | AND =>
      simp only [translate_insn] at h
      cases ho : operand 0 states with
      | none => simp [ho] at h
      | some ob =>
          cases ob with
          | none =>
              simp only [ho] at h
              obtain rfl : Bytecode.Unit Insn.AND = bc :=
                congrArg Prod.fst (Option.some.inj h)
              rfl
          | some b =>
              simp only [ho] at h
              by_cases hbm : as_bit_mask b ≠ 0
              · rw [if_pos hbm] at h
                obtain rfl : Bytecode.Mask (as_bit_mask b) = bc :=
                  congrArg Prod.fst (Option.some.inj h)
                rfl
              · rw [if_neg hbm] at h
                obtain rfl : Bytecode.Unit Insn.AND = bc :=
                  congrArg Prod.fst (Option.some.inj h)
                rfl
  | HAVOC n =>
      simp only [translate_insn] at h
      obtain rfl : Bytecode.Comment ("Havoc " ++ toString n) = bc :=
        congrArg Prod.fst (Option.some.inj h)
      rfl
  | JUMPI =>
      simp only [translate_insn] at h
      cases hjt : jump_targets states with
      | none => simp [hjt] at h
      | some ts =>
          simp only [hjt] at h
          obtain rfl : Bytecode.JumpI ts = bc := congrArg Prod.fst (Option.some.inj h)
          simp only [sortedJumps, decide_eq_true_eq]
          exact jump_targets_sorted states ts hjt
  | JUMP =>
      simp only [translate_insn] at h
      cases hjt : jump_targets states with
      | none => simp [hjt] at h
      | some ts =>
          simp only [hjt] at h
          obtain rfl : Bytecode.Jump ts = bc := congrArg Prod.fst (Option.some.inj h)
          simp only [sortedJumps, decide_eq_true_eq]
          exact jump_targets_sorted states ts hjt
  | RJUMP off =>
      simp only [translate_insn] at h
      exact absurd h (by simp)
  | RJUMPI off =>
      simp only [translate_insn] at h
      exact absurd h (by simp)
  | DATA bytes =>
      simp only [translate_insn] at h
      obtain rfl : Bytecode.Unit (Insn.DATA bytes) = bc :=
        congrArg Prod.fst (Option.some.inj h)
      rfl
  | JUMPDEST =>
      simp only [translate_insn] at h
      obtain rfl : Bytecode.Unit Insn.JUMPDEST = bc :=
        congrArg Prod.fst (Option.some.inj h)
      rfl
  | MSTORE =>
      simp only [translate_insn] at h
      obtain rfl : Bytecode.Unit Insn.MSTORE = bc :=
        congrArg Prod.fst (Option.some.inj h)
      rfl
  | MSTORE8 =>
      simp only [translate_insn] at h
      obtain rfl : Bytecode.Unit Insn.MSTORE8 = bc :=
        congrArg Prod.fst (Option.some.inj h)
      rfl
  | STOP =>
      simp only [translate_insn] at h
      obtain rfl : Bytecode.Unit Insn.STOP = bc :=
        congrArg Prod.fst (Option.some.inj h)
      rfl
  | POP =>
      simp only [translate_insn] at h
      obtain rfl : Bytecode.Unit Insn.POP = bc :=
        congrArg Prod.fst (Option.some.inj h)
      rfl
  | PUSH bytes =>
      simp only [translate_insn] at h
      obtain rfl : Bytecode.Unit (Insn.PUSH bytes) = bc :=
        congrArg Prod.fst (Option.some.inj h)
      rfl
  | DUP k =>
      simp only [translate_insn] at h
      obtain rfl : Bytecode.Unit (Insn.DUP k) = bc :=
        congrArg Prod.fst (Option.some.inj h)
      rfl
  | SWAP k =>
      simp only [translate_insn] at h
      obtain rfl : Bytecode.Unit (Insn.SWAP k) = bc :=
        congrArg Prod.fst (Option.some.inj h)
      rfl
  | OTHER a b c dd e =>
      simp only [translate_insn] at h
      obtain rfl : Bytecode.Unit (Insn.OTHER a b c dd e) = bc :=
        congrArg Prod.fst (Option.some.inj h)
      rfl

theorem JumpOk_append_one (bcs : List Bytecode) (bc : Bytecode)
    (h1 : JumpOk bcs) (h2 : sortedJumps bc = true) : JumpOk (bcs ++ [bc]) := by
  intro b hb
  rcases List.mem_append.mp hb with h | h
  · exact h1 b h
  · rw [List.mem_singleton.mp h]
    exact h2

theorem i2bLoop_jumpOk (insns : List Insn) (analysis : Nat → List AbstractState)
    (precheck : Insn → List Bytecode → List Bytecode) (index : Nat)
    (hpre : ∀ insn bcs, JumpOk bcs → JumpOk (precheck insn bcs)) :
    ∀ (n pc i : Nat) (blk : Block) (done : Bool)
      (out : Nat × Nat × Nat × Block × Bool),
      i2bLoop insns analysis precheck index n pc i blk done = some out →
      JumpOk blk.bytecodes → JumpOk out.2.2.2.1.bytecodes := by
  intro n
  induction n with
  | zero =>
      intro pc i blk done out h hok
      rw [i2bLoop] at h
      obtain rfl := Option.some.inj h
      exact hok
  | succ m ih =>
      intro pc i blk done out h hok
      rw [i2bLoop] at h
      by_cases hdone : done = true
      · rw [if_pos hdone] at h
        obtain rfl := Option.some.inj h
        exact hok
      · rw [if_neg hdone] at h
        cases hget : insns.get? i with
        | none =>
            rw [hget] at h
            obtain rfl := Option.some.inj h
            exact hok
        | some insn =>
            simp only [hget] at h
            by_cases hjd : insn = Insn.JUMPDEST
            · rw [if_pos hjd] at h
              by_cases hidx : i = index
              · rw [if_pos hidx] at h
                refine ih _ _ _ _ _ h ?_
                simp only [padStates]
                exact JumpOk_append_one _ _ (hpre insn _ hok) rfl
              · rw [if_neg hidx] at h
                obtain rfl := Option.some.inj h
                exact hpre insn _ hok
            · rw [if_neg hjd] at h
              cases htr : translate_insn insn done (analysis i) with
              | none => rw [htr] at h; exact absurd h (by simp)
              | some r =>
                  rw [htr] at h
                  obtain ⟨bc, done1⟩ := r
                  refine ih _ _ _ _ _ h ?_
                  simp only [padStates]
                  exact JumpOk_append_one _ _ (hpre insn _ hok)
                    (translate_insn_sortedJumps insn done (analysis i) bc done1 htr)

theorem insns_to_block_jumpOk (n pc index : Nat) (insns : List Insn)
    (analysis : Nat → List AbstractState)
    (precheck : Insn → List Bytecode → List Bytecode)
    (hpre : ∀ insn bcs, JumpOk bcs → JumpOk (precheck insn bcs))
    (pc1 index1 : Nat) (blk : Block)
    (h : insns_to_block n pc index insns analysis precheck = some (pc1, index1, blk)) :
    JumpOk blk.bytecodes := by
  unfold insns_to_block at h
  cases hloop : i2bLoop insns analysis precheck index n pc index
      { pc := pc, states := [], bytecodes := [], next := none } false with
  | none => rw [hloop] at h; exact absurd h (by simp)
  | some out =>
      rw [hloop] at h
      obtain ⟨n1, pc2, i2, blk2, done2⟩ := out
      have hok := i2bLoop_jumpOk insns analysis precheck index hpre n pc index
        _ false _ hloop (fun b hb => by simp at hb)
      have hinj := Option.some.inj h
      rw [Prod.mk.injEq, Prod.mk.injEq] at hinj
      obtain ⟨rfl, rfl, rfl⟩ := hinj
      by_cases hcond : n1 = 0 ∧ done2 = false
      · simpa [hcond] using hok
      · simpa [hcond] using hok

theorem i2bsLoop_jumpOk (n : Nat) (insns : List Insn)
    (analysis : Nat → List AbstractState)
    (precheck : Insn → List Bytecode → List Bytecode)
    (hpre : ∀ insn bcs, JumpOk bcs → JumpOk (precheck insn bcs)) :
    ∀ (fuel pc index : Nat) (acc blocks : List Block),
      (∀ b ∈ acc, JumpOk b.bytecodes) →
      i2bsLoop n insns analysis precheck fuel pc index acc = some blocks →
      ∀ b ∈ blocks, JumpOk b.bytecodes := by
  intro fuel
  induction fuel with
  | zero =>
      intro pc index acc blocks _ h
      rw [i2bsLoop] at h
      exact absurd h (by simp)
  | succ f ih =>
      intro pc index acc blocks hacc h
      rw [i2bsLoop] at h
      by_cases hcond : 0 < n ∧ index < insns.length
      · rw [if_pos hcond] at h
        cases hblk : insns_to_block n pc index insns analysis precheck with
        | none => rw [hblk] at h; exact absurd h (by simp)
        | some r =>
            obtain ⟨pc1, index1, blk⟩ := r
            rw [hblk] at h
            refine ih pc1 index1 (acc ++ [blk]) blocks ?_ h
            intro b hb
            rcases List.mem_append.mp hb with hb | hb
            · exact hacc b hb
            · rw [List.mem_singleton.mp hb]
              exact insns_to_block_jumpOk n pc index insns analysis precheck hpre
                pc1 index1 blk hblk
      · rw [if_neg hcond] at h
        obtain rfl := Option.some.inj h
        exact hacc

/-- C6: provided the precondition hook only contributes bytecodes that
already satisfy the sortedness invariant (per the spec it appends only
`Assert`s), every `Jump`/`JumpI` bytecode in the blocks produced by the
block builder carries a strictly increasing target list. -/
theorem C6_targets_sorted (n : Nat) (insns : List Insn)
    (analysis : Nat → List AbstractState)
    (precheck : Insn → List Bytecode → List Bytecode) (blocks : List Block)
    (hpre : ∀ insn bcs, JumpOk bcs → JumpOk (precheck insn bcs))
    (hrun : insns_to_blocks n insns analysis precheck = some blocks) :
    ∀ blk ∈ blocks, ∀ bc ∈ blk.bytecodes, sortedJumps bc = true := by
  intro blk hblk bc hbc
  exact i2bsLoop_jumpOk n insns analysis precheck hpre (insns.length + 1) 0 0 [] blocks
    (fun b hb => by simp at hb) hrun blk hblk bc hbc

/-- C6 witness: on `PUSH1 0x05; JUMP` with reachable branch targets 5 and
3, the builder emits `Jump [3, 5]`, whose target list is strictly
increasing. -/
theorem C6_witness : sortedJumps (.Jump [3, 5]) = true :=
  C6_targets_sorted 10 [Insn.PUSH [5], Insn.JUMP]
    (fun i => if i == 1 then [⟨none, [some 5]⟩, ⟨none, [some 3]⟩] else [])
    (fun _ bcs => bcs)
    [⟨0, [⟨[], ⟨[]⟩⟩, ⟨[⟨none, [some 5]⟩, ⟨none, [some 3]⟩], ⟨[]⟩⟩],
      [.Unit (.PUSH [5]), .Jump [3, 5]], none⟩]
    (fun _ _ h => h) (by rfl)
    ⟨0, [⟨[], ⟨[]⟩⟩, ⟨[⟨none, [some 5]⟩, ⟨none, [some 3]⟩], ⟨[]⟩⟩],
      [.Unit (.PUSH [5]), .Jump [3, 5]], none⟩
    (by simp) (.Jump [3, 5]) (by simp)

end DevmProofGen
